import Mathlib

/-
Verification of the MMCCCl_SOP document review and sign application.

The repository contains two variants of the same single page form
application: src/sop_app.py (the main variant) and src/untitled.py (an
earlier variant). This file gives a shallow embedding of the parts of
both variants that carry the review and signature logic, and proves the
stated properties about them.

Modelling conventions:
- the file tree under a category folder is a list of FSEntry values, one
  per descendant of the folder; the depth field counts path components
  below the folder (depth 1 = directly inside it), isFile is the
  Path.is_file test, suffix is Path.suffix (final extension with dot)
  and path is the relative path string used by Python for sorting;
- the signature CSV is a list of SigRow values; a possibly missing or
  unreadable backing store is an Option of such a list;
- the wall clock at the moment of a call is one Instant value holding
  both of its rendered forms (utcnow isoformat and now isoformat);
- Python dict semantics (the reviewed checkbox dict) are an association
  list with an update in place on existing keys and an append otherwise.
-/

/-- ASCII lowercasing of a string, modelling the Python str.lower call
applied to file suffixes. -/
def strLower (s : String) : String := ⟨s.data.map Char.toLower⟩

/-- One entry of the file tree below a category folder. -/
structure FSEntry where
  name : String
  path : String
  depth : Nat
  isFile : Bool
  suffix : String
deriving DecidableEq

/-- The supported document extensions, from list_files in both variants. -/
def exts : List String := [".pdf", ".docx", ".doc", ".txt", ".xlsx", ".csv", ".xls"]

/-- Insert an entry into a list that is sorted by path, keeping it sorted. -/
def insertSorted (x : FSEntry) : List FSEntry → List FSEntry
  | [] => [x]
  | y :: ys => if x.path ≤ y.path then x :: y :: ys else y :: insertSorted x ys

/-- Sorting a list of file tree entries by path, modelling the Python
sorted call on Path objects. -/
def sortByPath (l : List FSEntry) : List FSEntry := l.foldr insertSorted []

/-- list_files of src/sop_app.py: sort the recursive listing of the
folder (rglob) and keep the files whose lowercased suffix is supported. -/
def list_files (tree : List FSEntry) : List FSEntry :=
  (sortByPath tree).filter (fun p => p.isFile && exts.contains (strLower p.suffix))

/-- list_files of src/untitled.py: sort only the immediate children of
the folder (iterdir) and keep the entries whose lowercased suffix is
supported; there is no is_file test and no recursion. -/
def list_files_untitled (tree : List FSEntry) : List FSEntry :=
  (sortByPath (tree.filter (fun p => p.depth == 1))).filter
    (fun p => exts.contains (strLower p.suffix))

/-- The instant at which a call happens, holding the two rendered forms
produced by datetime.utcnow().isoformat()+Z and datetime.now().isoformat()
for that one call. -/
structure Instant where
  utcIso : String
  localIso : String
deriving DecidableEq

/-- One row of the signature CSV, in the column order of both variants. -/
structure SigRow where
  timestamp_utc : String
  timestamp_local : String
  name : String
  email : String
  role : String
  category : String
  reviewed_files : String
deriving DecidableEq

/-- record_signature of both variants: build the row from the call
arguments and the clock, read the current CSV contents, append the row
and write the result back; the row is returned to the caller. -/
def record_signature (t : Instant) (name email role category : String)
    (reviewed_files : List String) (log : List SigRow) : List SigRow × SigRow :=
  let row : SigRow :=
    ⟨t.utcIso, t.localIso, name, email, role, category,
      String.intercalate "|" reviewed_files⟩
  (log ++ [row], row)

/-- Failure of the backing store read. -/
inductive StoreError where
  | unavailable
deriving DecidableEq

/-- Reading the signature CSV: a missing or unreadable store makes
pd.read_csv raise, a present store yields its rows. -/
def readCsv (s : Option (List SigRow)) : Except StoreError (List SigRow) :=
  match s with
  | some rows => Except.ok rows
  | none => Except.error StoreError.unavailable

/-- get_signatures_df of src/sop_app.py: the read is wrapped in a
try and except block that turns any failure into an empty table. -/
def get_signatures_df (s : Option (List SigRow)) : List SigRow :=
  match readCsv s with
  | Except.ok rows => rows
  | Except.error _ => []

/-- get_signatures_df of src/untitled.py: a bare pd.read_csv with no
handler, so a failing read propagates to the caller. -/
def get_signatures_df_untitled (s : Option (List SigRow)) :
    Except StoreError (List SigRow) :=
  readCsv s

/-- Upsert into the reviewed checkbox dict, modelling the Python dict
assignment reviewed[name] = value. -/
def dictInsert (d : List (String × Bool)) (k : String) (v : Bool) :
    List (String × Bool) :=
  if d.any (fun p => decide (p.1 = k)) then
    d.map (fun p => if p.1 = k then (k, v) else p)
  else d ++ [(k, v)]

/-- The reviewed dict built by the per file loop of a category tab:
for each listed file, reviewed[f.name] gets the checkbox state keyed by
the file name. -/
def buildReviewed (files : List FSEntry) (cb : String → Bool) :
    List (String × Bool) :=
  files.foldl (fun d f => dictInsert d f.name (cb f.name)) []

/-- all_reviewed of src/sop_app.py: all(reviewed.values()) when the dict
is nonempty, False when it is empty. -/
def allReviewedB (d : List (String × Bool)) : Bool :=
  if d.isEmpty then false else d.all (fun p => p.2)

/-- The comprehension that collects the checked file names, in dict
order, for the signature row. -/
def reviewedFilesOf (d : List (String × Bool)) : List String :=
  (d.filter (fun p => p.2)).map (fun p => p.1)

/-- Outcome of a press of the sign and record button. -/
inductive SubmitResult where
  | errNotAllReviewed
  | errMissingNameEmail
  | signed (row : SigRow)
deriving DecidableEq

/-- Whether a submission outcome recorded a signature. -/
def SubmitResult.isSignedB : SubmitResult → Bool
  | SubmitResult.signed _ => true
  | _ => false

/-- The submit branch of the form in both variants: reject when not all
files are reviewed, then reject when name or email is empty, otherwise
collect the checked file names and call record_signature. -/
def submitForm (t : Instant) (reviewed : List (String × Bool))
    (name email role category : String) (log : List SigRow) :
    List SigRow × SubmitResult :=
  if allReviewedB reviewed = false then (log, SubmitResult.errNotAllReviewed)
  else if name = "" ∨ email = "" then (log, SubmitResult.errMissingNameEmail)
  else
    let out := record_signature t name email role category
      (reviewedFilesOf reviewed) log
    (out.1, SubmitResult.signed out.2)

/-- Keys of a string keyed list in order of first insertion, modelling
the key order of a Python dict filled by repeated assignment. -/
def firstDedup (l : List String) : List String :=
  l.foldl (fun acc k => if k ∈ acc then acc else acc ++ [k]) []

/-- Modelled from the spec: the identity keyed review state table
(columns email, category, file_key, reviewed) and its upsert are not in
the two source files under src, which keep only per session checkbox
state; the record follows the data model of the spec, section 3. -/
structure ReviewRecord where
  identity : String
  category : String
  fileKey : String
  reviewed : Bool
deriving DecidableEq

/-- The key of a review record. -/
def rkey (r : ReviewRecord) : String × String × String :=
  (r.identity, r.category, r.fileKey)

/-- Modelled from the spec: the upsert of setReviewed, section 4.2 of
the spec; overwrite the boolean of an existing record with the same key
in place, otherwise append a new record. -/
def setReviewedUpsert (st : List ReviewRecord) (id c f : String) (v : Bool) :
    List ReviewRecord :=
  if st.any (fun r => decide (rkey r = (id, c, f))) then
    st.map (fun r => if rkey r = (id, c, f) then ⟨r.identity, r.category, r.fileKey, v⟩ else r)
  else st ++ [⟨id, c, f, v⟩]

/-- Ledger failures. -/
inductive LedgerError where
  | invalidIdentity
deriving DecidableEq

/-- Modelled from the spec: setReviewed of section 4.2, which is not in
the two source files under src; it rejects an empty identity with
InvalidIdentityError and otherwise upserts. -/
def setReviewed (st : List ReviewRecord) (id c f : String) (v : Bool) :
    Except LedgerError (List ReviewRecord) :=
  if id = "" then Except.error LedgerError.invalidIdentity
  else Except.ok (setReviewedUpsert st id c f v)

/-- The reviewed boolean stored for a key, if any record exists for it. -/
def lookupReview (st : List ReviewRecord) (id c f : String) : Option Bool :=
  (st.find? (fun r => decide (rkey r = (id, c, f)))).map (fun r => r.reviewed)

/-- isCategoryComplete: the completeness test of a category, following
the all_reviewed guard of src/sop_app.py line 264 (all of the reviewed
values when the dict is nonempty, False when it is empty) read over the
ledger, with a missing record counting as not reviewed, which is the
checkbox default. -/
def isCategoryComplete (st : List ReviewRecord) (id c : String)
    (expected : List String) : Bool :=
  if expected.isEmpty then false
  else expected.all (fun k => (lookupReview st id c k).getD false)

/-- Fixed inputs used to evaluate the reviewed dict construction. -/
def demoFiles : List FSEntry :=
  [⟨"a.pdf", "a.pdf", 1, true, ".pdf"⟩, ⟨"b.pdf", "b.pdf", 1, true, ".pdf"⟩]

/-- Checkbox state with every box ticked. -/
def cbTrue : String → Bool := fun _ => true

theorem mem_insertSorted (a x : FSEntry) (l : List FSEntry) :
    a ∈ insertSorted x l ↔ a = x ∨ a ∈ l := by
  induction l with
  | nil => simp [insertSorted]
  | cons y ys ih =>
    simp only [insertSorted]
    split
    · simp [List.mem_cons]
    · simp only [List.mem_cons, ih]
      tauto

theorem pairwise_insertSorted (x : FSEntry) (l : List FSEntry)
    (h : l.Pairwise (fun a b => a.path ≤ b.path)) :
    (insertSorted x l).Pairwise (fun a b => a.path ≤ b.path) := by
  induction l with
  | nil => simp [insertSorted]
  | cons y ys ih =>
    rcases List.pairwise_cons.mp h with ⟨hy, hys⟩
    simp only [insertSorted]
    split
    · rename_i hle
      refine List.pairwise_cons.mpr ⟨?_, h⟩
      intro b hb
      rcases List.mem_cons.mp hb with rfl | hb
      · exact hle
      · exact le_trans hle (hy b hb)
    · rename_i hgt
      refine List.pairwise_cons.mpr ⟨?_, ih hys⟩
      intro b hb
      rcases (mem_insertSorted b x ys).mp hb with rfl | hb
      · exact le_of_not_le hgt
      · exact hy b hb

theorem mem_sortByPath (a : FSEntry) (l : List FSEntry) :
    a ∈ sortByPath l ↔ a ∈ l := by
  induction l with
  | nil => simp [sortByPath]
  | cons x xs ih =>
    show a ∈ insertSorted x (sortByPath xs) ↔ _
    rw [mem_insertSorted, ih]
    simp [List.mem_cons]

theorem pairwise_sortByPath (l : List FSEntry) :
    (sortByPath l).Pairwise (fun a b => a.path ≤ b.path) := by
  induction l with
  | nil => simp [sortByPath]
  | cons x xs ih => exact pairwise_insertSorted x (sortByPath xs) ih

theorem rkey_overwrite (r : ReviewRecord) (k : String × String × String) (v : Bool) :
    rkey (if rkey r = k then ⟨r.identity, r.category, r.fileKey, v⟩ else r) = rkey r := by
  split <;> rfl

theorem map_rkey_overwrite (st : List ReviewRecord) (k : String × String × String) (v : Bool) :
    (st.map (fun r => if rkey r = k then ⟨r.identity, r.category, r.fileKey, v⟩ else r)).map rkey
      = st.map rkey := by
  rw [List.map_map]
  exact List.map_congr_left (fun r _ => rkey_overwrite r k v)

theorem find_map_overwrite (st : List ReviewRecord) (k : String × String × String) (v : Bool)
    (h : k ∈ st.map rkey) :
    ((st.map (fun r => if rkey r = k then ⟨r.identity, r.category, r.fileKey, v⟩ else r)).find?
        (fun r => decide (rkey r = k))).map (fun r => r.reviewed) = some v := by
  induction st with
  | nil => simp at h
  | cons a tl ih =>
    by_cases ha : rkey a = k
    · rw [List.map_cons, if_pos ha, List.find?_cons_of_pos]
      · rfl
      · have hk2 : rkey (⟨a.identity, a.category, a.fileKey, v⟩ : ReviewRecord) = rkey a := rfl
        simp [hk2, ha]
    · have hk : k ∈ tl.map rkey := by
        rcases List.mem_cons.mp h with he | hm
        · exact absurd he.symm ha
        · exact hm
      rw [List.map_cons, if_neg ha, List.find?_cons_of_neg]
      · exact ih hk
      · simp [ha]

/-- C1: the Ledger keeps at most one ReviewRecord per (identity,
category, file_key) key — a state whose keys are distinct still has
distinct keys after any setReviewed — and a later setReviewed for an
existing key overwrites the reviewed boolean of that record in place
(the key sequence is unchanged and the key now stores the new value)
rather than creating a second record. -/
theorem setReviewed_upsert_unique_key (st : List ReviewRecord) (id c f : String) (v : Bool)
    (h : (st.map rkey).Nodup) :
    ((setReviewedUpsert st id c f v).map rkey).Nodup ∧
    ((id, c, f) ∈ st.map rkey →
      (setReviewedUpsert st id c f v).map rkey = st.map rkey ∧
      lookupReview (setReviewedUpsert st id c f v) id c f = some v) := by
  by_cases hmem : (id, c, f) ∈ st.map rkey
  · have hany : st.any (fun r => decide (rkey r = (id, c, f))) = true := by
      rw [List.any_eq_true]
      rcases List.mem_map.mp hmem with ⟨r, hr, hk⟩
      exact ⟨r, hr, by simp [hk]⟩
    have hres : setReviewedUpsert st id c f v
        = st.map (fun r => if rkey r = (id, c, f) then
            ⟨r.identity, r.category, r.fileKey, v⟩ else r) := by
      unfold setReviewedUpsert
      rw [if_pos hany]
    refine ⟨?_, fun _ => ⟨?_, ?_⟩⟩
    · rw [hres, map_rkey_overwrite]
      exact h
    · rw [hres, map_rkey_overwrite]
    · rw [hres]
      unfold lookupReview
      exact find_map_overwrite st (id, c, f) v hmem
  · have hany : ¬ (st.any (fun r => decide (rkey r = (id, c, f))) = true) := by
      rw [List.any_eq_true]
      rintro ⟨r, hr, hk⟩
      exact hmem (List.mem_map.mpr ⟨r, hr, by simpa using hk⟩)
    have hres : setReviewedUpsert st id c f v = st ++ [⟨id, c, f, v⟩] := by
      unfold setReviewedUpsert
      rw [if_neg hany]
    refine ⟨?_, fun hc => absurd hc hmem⟩
    rw [hres, List.map_append, List.nodup_append]
    refine ⟨h, List.nodup_singleton _, ?_⟩
    intro a ha hb
    have hak : a = (id, c, f) := by simpa [rkey] using hb
    rw [hak] at ha
    exact hmem ha

theorem setReviewed_upsert_unique_key_wit :
    ((setReviewedUpsert [⟨"a@x", "SOP", "x.pdf", false⟩] "a@x" "SOP" "x.pdf" true).map rkey).Nodup ∧
    lookupReview (setReviewedUpsert [⟨"a@x", "SOP", "x.pdf", false⟩] "a@x" "SOP" "x.pdf" true)
      "a@x" "SOP" "x.pdf" = some true :=
  ⟨(setReviewed_upsert_unique_key [⟨"a@x", "SOP", "x.pdf", false⟩] "a@x" "SOP" "x.pdf" true
      (by decide)).1,
   ((setReviewed_upsert_unique_key [⟨"a@x", "SOP", "x.pdf", false⟩] "a@x" "SOP" "x.pdf" true
      (by decide)).2 (by decide)).2⟩

/-- C2: isCategoryComplete is true exactly when the expected file key
list is nonempty and every expected file key has a review record for the
identity and category with reviewed true; in particular it is false on
an empty expected list. -/
theorem isCategoryComplete_iff_all_true (st : List ReviewRecord) (id c : String)
    (exp : List String) :
    isCategoryComplete st id c exp = true ↔
      exp ≠ [] ∧ ∀ k ∈ exp, lookupReview st id c k = some true := by
  unfold isCategoryComplete
  by_cases he : exp.isEmpty
  · rw [if_pos he]
    have hnil : exp = [] := by simpa using he
    subst hnil
    simp
  · rw [if_neg he]
    have hne : exp ≠ [] := by
      intro hnil
      subst hnil
      exact he rfl
    rw [List.all_eq_true]
    constructor
    · intro hall
      refine ⟨hne, fun k hk => ?_⟩
      have h1 := hall k hk
      cases hl : lookupReview st id c k with
      | none =>
        rw [hl] at h1
        simp at h1
      | some b =>
        rw [hl] at h1
        simp at h1
        rw [h1]
    · rintro ⟨-, hall⟩ k hk
      rw [hall k hk]
      rfl

theorem isCategoryComplete_iff_all_true_wit :
    isCategoryComplete [⟨"a@x", "SOP", "x.pdf", true⟩] "a@x" "SOP" ["x.pdf"] = true :=
  (isCategoryComplete_iff_all_true [⟨"a@x", "SOP", "x.pdf", true⟩] "a@x" "SOP" ["x.pdf"]).mpr
    ⟨by decide, by decide⟩

/-- C6: setReviewed with the empty identity fails with
InvalidIdentityError for every category, file key and value; the error
result carries no new state, so no review state is recorded. -/
theorem setReviewed_empty_identity_fails (st : List ReviewRecord) (c f : String) (v : Bool) :
    setReviewed st "" c f v = Except.error LedgerError.invalidIdentity := by
  unfold setReviewed
  rw [if_pos rfl]

/-- C3: a press of the sign button records a SignatureEvent exactly when
every listed document is marked reviewed and name and email are both
nonempty; in every other case an error result is reported and the log is
left unchanged, and in the success case exactly the one new event is
appended. -/
theorem submitForm_signs_iff_valid (t : Instant) (reviewed : List (String × Bool))
    (name email role cat : String) (log : List SigRow) :
    ((submitForm t reviewed name email role cat log).2.isSignedB
        = (allReviewedB reviewed && !(name == "") && !(email == ""))) ∧
    (∀ row, (submitForm t reviewed name email role cat log).2 = SubmitResult.signed row →
      (submitForm t reviewed name email role cat log).1 = log ++ [row]) ∧
    ((submitForm t reviewed name email role cat log).2.isSignedB = false →
      (submitForm t reviewed name email role cat log).1 = log) := by
  cases h1 : allReviewedB reviewed with
  | false =>
    have hs : submitForm t reviewed name email role cat log
        = (log, SubmitResult.errNotAllReviewed) := by
      unfold submitForm
      rw [if_pos h1]
    rw [hs]
    exact ⟨by simp [SubmitResult.isSignedB], fun row hr => by simp at hr, fun _ => rfl⟩
  | true =>
    by_cases h2 : name = "" ∨ email = ""
    · have hs : submitForm t reviewed name email role cat log
          = (log, SubmitResult.errMissingNameEmail) := by
        unfold submitForm
        rw [h1, if_neg (by simp : ¬ (true = false)), if_pos h2]
      rw [hs]
      refine ⟨?_, fun row hr => by simp at hr, fun _ => rfl⟩
      rcases h2 with h2 | h2 <;> subst h2 <;> simp [SubmitResult.isSignedB]
    · push_neg at h2
      have hs : submitForm t reviewed name email role cat log
          = ((record_signature t name email role cat (reviewedFilesOf reviewed) log).1,
             SubmitResult.signed
               (record_signature t name email role cat (reviewedFilesOf reviewed) log).2) := by
        unfold submitForm
        rw [h1, if_neg (by simp : ¬ (true = false)),
          if_neg (fun h => h.elim h2.1 h2.2)]
      rw [hs]
      refine ⟨?_, ?_, ?_⟩
      · have hn : (name == "") = false := beq_eq_false_iff_ne.mpr h2.1
        have he : (email == "") = false := beq_eq_false_iff_ne.mpr h2.2
        simp [SubmitResult.isSignedB, hn, he]
      · intro row hr
        simp only [SubmitResult.signed.injEq] at hr
        rw [← hr]
        rfl
      · intro hfalse
        simp [SubmitResult.isSignedB] at hfalse

theorem submitForm_signs_iff_valid_wit :
    (submitForm ⟨"u", "l"⟩ [("a.pdf", true)] "Jo" "jo@x.com" "Tech" "Safety Policies" []).1
      = [] ++ [⟨"u", "l", "Jo", "jo@x.com", "Tech", "Safety Policies", "a.pdf"⟩] ∧
    (submitForm ⟨"u", "l"⟩ [("a.pdf", false)] "Jo" "jo@x.com" "Tech" "Safety Policies" []).1
      = [] :=
  ⟨(submitForm_signs_iff_valid ⟨"u", "l"⟩ [("a.pdf", true)] "Jo" "jo@x.com" "Tech"
      "Safety Policies" []).2.1
      ⟨"u", "l", "Jo", "jo@x.com", "Tech", "Safety Policies", "a.pdf"⟩ (by decide),
   (submitForm_signs_iff_valid ⟨"u", "l"⟩ [("a.pdf", false)] "Jo" "jo@x.com" "Tech"
      "Safety Policies" []).2.2 (by decide)⟩

/-- C4: record_signature appends exactly one event: the new log is the
old log with the one returned row at the end, the old log is an
unmodified prefix of the new log, the length grows by one, and a
repeated identical call appends a second identical event with no
deduplication. -/
theorem record_signature_append_only (t : Instant) (name email role cat : String)
    (files : List String) (log : List SigRow) :
    (record_signature t name email role cat files log).1
      = log ++ [(record_signature t name email role cat files log).2] ∧
    (record_signature t name email role cat files log).1.take log.length = log ∧
    (record_signature t name email role cat files log).1.length = log.length + 1 ∧
    (record_signature t name email role cat files
        (record_signature t name email role cat files log).1).1
      = log ++ [(record_signature t name email role cat files log).2]
          ++ [(record_signature t name email role cat files log).2] := by
  refine ⟨rfl, ?_, by simp [record_signature], rfl⟩
  have htake := List.take_left log [(record_signature t name email role cat files log).2]
  exact htake

/-- C5: the appended event stores exactly the caller supplied ordered
file list joined with the bar delimiter, carries the two timestamp
renderings of the single call instant, copies the other arguments
unchanged, does not depend on the current log contents, and is the row
appended to the log. -/
theorem record_signature_row_exact (t : Instant) (name email role cat : String)
    (files : List String) (log log2 : List SigRow) :
    (record_signature t name email role cat files log).2.reviewed_files
      = String.intercalate "|" files ∧
    (record_signature t name email role cat files log).2.timestamp_utc = t.utcIso ∧
    (record_signature t name email role cat files log).2.timestamp_local = t.localIso ∧
    (record_signature t name email role cat files log).2.name = name ∧
    (record_signature t name email role cat files log).2.email = email ∧
    (record_signature t name email role cat files log).2.role = role ∧
    (record_signature t name email role cat files log).2.category = cat ∧
    (record_signature t name email role cat files log2).2
      = (record_signature t name email role cat files log).2 ∧
    (record_signature t name email role cat files log).1
      = log ++ [(record_signature t name email role cat files log).2] :=
  ⟨rfl, rfl, rfl, rfl, rfl, rfl, rfl, rfl, rfl⟩

/-- C10: only name and email are validated at signing time: with every
document reviewed and nonempty name and email, a submission whose role
is the empty string is recorded, and the stored event carries that
empty role unchanged. -/
theorem submit_allows_empty_role (t : Instant) (reviewed : List (String × Bool))
    (name email cat : String) (log : List SigRow)
    (hall : allReviewedB reviewed = true) (hname : name ≠ "") (hemail : email ≠ "") :
    (submitForm t reviewed name email "" cat log).2
      = SubmitResult.signed ⟨t.utcIso, t.localIso, name, email, "", cat,
          String.intercalate "|" (reviewedFilesOf reviewed)⟩ ∧
    (submitForm t reviewed name email "" cat log).1
      = log ++ [⟨t.utcIso, t.localIso, name, email, "", cat,
          String.intercalate "|" (reviewedFilesOf reviewed)⟩] := by
  have hs : submitForm t reviewed name email "" cat log
      = (log ++ [⟨t.utcIso, t.localIso, name, email, "", cat,
            String.intercalate "|" (reviewedFilesOf reviewed)⟩],
         SubmitResult.signed ⟨t.utcIso, t.localIso, name, email, "", cat,
            String.intercalate "|" (reviewedFilesOf reviewed)⟩) := by
    unfold submitForm
    rw [hall, if_neg (by simp : ¬ (true = false)),
      if_neg (fun h => h.elim hname hemail)]
    rfl
  rw [hs]
  exact ⟨rfl, rfl⟩

theorem submit_allows_empty_role_wit :
    (submitForm ⟨"u", "l"⟩ [("a.pdf", true)] "Jo" "jo@x.com" "" "SOP" []).2
      = SubmitResult.signed ⟨"u", "l", "Jo", "jo@x.com", "", "SOP",
          String.intercalate "|" (reviewedFilesOf [("a.pdf", true)])⟩ ∧
    (submitForm ⟨"u", "l"⟩ [("a.pdf", true)] "Jo" "jo@x.com" "" "SOP" []).1
      = [] ++ [⟨"u", "l", "Jo", "jo@x.com", "", "SOP",
          String.intercalate "|" (reviewedFilesOf [("a.pdf", true)])⟩] :=
  submit_allows_empty_role ⟨"u", "l"⟩ [("a.pdf", true)] "Jo" "jo@x.com" "SOP" []
    (by decide) (by decide) (by decide)

/-- C7 (amended): list_files of src/sop_app.py scans the whole tree
below the category folder, subfolders included, and returns exactly the
files whose lowercased extension is supported, sorted by path; being a
pure function of the tree, two calls on an unchanged tree return the
same sequence. -/
theorem list_files_recursive_filter_sorted (t : List FSEntry) :
    (∀ p, p ∈ list_files t ↔
      p ∈ t ∧ p.isFile = true ∧ exts.contains (strLower p.suffix) = true) ∧
    (list_files t).Pairwise (fun a b => a.path ≤ b.path) := by
  constructor
  · intro p
    unfold list_files
    rw [List.mem_filter, mem_sortByPath]
    simp [Bool.and_eq_true, and_assoc]
  · exact (pairwise_sortByPath t).filter _

theorem list_files_recursive_filter_sorted_wit :
    (⟨"a.pdf", "sub/a.pdf", 2, true, ".pdf"⟩ : FSEntry)
      ∈ list_files [⟨"a.pdf", "sub/a.pdf", 2, true, ".pdf"⟩] :=
  ((list_files_recursive_filter_sorted [⟨"a.pdf", "sub/a.pdf", 2, true, ".pdf"⟩]).1 _).mpr
    ⟨by decide, by decide, by decide⟩

/-- C7 counterexample: list_files of src/untitled.py does not recurse:
a supported document file sitting in a subfolder (depth 2) is in the
tree, is a file, has a supported extension, and is not returned. -/
theorem list_files_untitled_misses_subfolder_file :
    (⟨"a.pdf", "sub/a.pdf", 2, true, ".pdf"⟩ : FSEntry)
      ∈ [(⟨"a.pdf", "sub/a.pdf", 2, true, ".pdf"⟩ : FSEntry)] ∧
    (⟨"a.pdf", "sub/a.pdf", 2, true, ".pdf"⟩ : FSEntry).isFile = true ∧
    exts.contains (strLower (⟨"a.pdf", "sub/a.pdf", 2, true, ".pdf"⟩ : FSEntry).suffix)
      = true ∧
    list_files_untitled [⟨"a.pdf", "sub/a.pdf", 2, true, ".pdf"⟩] = [] :=
  ⟨by decide, rfl, by decide, rfl⟩

/-- C8 (amended): get_signatures_df of src/sop_app.py degrades
gracefully: a present store yields its rows and a missing or unreadable
store yields the empty sequence instead of an error. -/
theorem get_signatures_df_graceful :
    (∀ rows, get_signatures_df (some rows) = rows) ∧ get_signatures_df none = [] :=
  ⟨fun _ => rfl, rfl⟩

/-- C8 counterexample: the read of src/untitled.py propagates the store
failure instead of returning an empty sequence when the store is missing
or unreadable at read time. -/
theorem get_signatures_untitled_errors_on_missing :
    get_signatures_df_untitled none = Except.error StoreError.unavailable := rfl

theorem filter_all_true (d : List (String × Bool)) (h : allReviewedB d = true) :
    d.filter (fun p => p.2) = d := by
  unfold allReviewedB at h
  by_cases hd : d.isEmpty
  · rw [if_pos hd] at h
    exact absurd h (by simp)
  · rw [if_neg hd] at h
    exact List.filter_eq_self.mpr (List.all_eq_true.mp h)

theorem any_key_iff (d : List (String × Bool)) (k : String) :
    d.any (fun p => decide (p.1 = k)) = true ↔ k ∈ d.map (fun p => p.1) := by
  simp [List.any_eq_true, List.mem_map]

theorem keys_dictInsert (d : List (String × Bool)) (k : String) (v : Bool) :
    (dictInsert d k v).map (fun p => p.1)
      = if k ∈ d.map (fun p => p.1) then d.map (fun p => p.1)
        else d.map (fun p => p.1) ++ [k] := by
  unfold dictInsert
  by_cases hmem : k ∈ d.map (fun p => p.1)
  · rw [if_pos ((any_key_iff d k).mpr hmem), if_pos hmem, List.map_map]
    apply List.map_congr_left
    intro p hp
    by_cases hpk : p.1 = k
    · simp [Function.comp_apply, hpk]
    · simp [Function.comp_apply, hpk]
  · rw [if_neg (fun hc => hmem ((any_key_iff d k).mp hc)), if_neg hmem, List.map_append]
    rfl

theorem keys_buildReviewed_aux (files : List FSEntry) (cb : String → Bool)
    (d : List (String × Bool)) :
    ((files.foldl (fun d f => dictInsert d f.name (cb f.name)) d).map (fun p => p.1))
      = (files.map (fun f => f.name)).foldl
          (fun acc k => if k ∈ acc then acc else acc ++ [k]) (d.map (fun p => p.1)) := by
  induction files generalizing d with
  | nil => rfl
  | cons f fs ih =>
    simp only [List.foldl_cons, List.map_cons]
    rw [ih, keys_dictInsert]

theorem keys_buildReviewed (files : List FSEntry) (cb : String → Bool) :
    (buildReviewed files cb).map (fun p => p.1)
      = firstDedup (files.map (fun f => f.name)) := by
  unfold buildReviewed firstDedup
  simpa using keys_buildReviewed_aux files cb []

theorem mem_foldl_dedup (l : List String) (acc : List String) (a : String) :
    a ∈ l.foldl (fun acc k => if k ∈ acc then acc else acc ++ [k]) acc
      ↔ a ∈ acc ∨ a ∈ l := by
  induction l generalizing acc with
  | nil => simp
  | cons k ks ih =>
    simp only [List.foldl_cons]
    rw [ih]
    by_cases hk : k ∈ acc
    · rw [if_pos hk]
      constructor
      · rintro (h | h)
        · exact Or.inl h
        · exact Or.inr (List.mem_cons_of_mem k h)
      · rintro (h | h)
        · exact Or.inl h
        · rcases List.mem_cons.mp h with rfl | h2
          · exact Or.inl hk
          · exact Or.inr h2
    · rw [if_neg hk]
      simp only [List.mem_append, List.mem_singleton, List.mem_cons]
      tauto

theorem mem_firstDedup (l : List String) (a : String) :
    a ∈ firstDedup l ↔ a ∈ l := by
  unfold firstDedup
  rw [mem_foldl_dedup]
  simp

/-- C9: when a submission passes the every box ticked guard, the file
list the form passes to record_signature is the full key list of the
reviewed dict: every listed file name of the category, in the catalog
display order (order of first occurrence of each name in the sorted
listing), never a proper subset; and the event appended on success is
the one recorded for that full name list. -/
theorem submit_passes_all_file_names (files : List FSEntry) (cb : String → Bool)
    (hall : allReviewedB (buildReviewed files cb) = true) :
    reviewedFilesOf (buildReviewed files cb) = firstDedup (files.map (fun f => f.name)) ∧
    (∀ f ∈ files, f.name ∈ reviewedFilesOf (buildReviewed files cb)) ∧
    (∀ (t : Instant) (name email role cat : String) (log : List SigRow),
      (submitForm t (buildReviewed files cb) name email role cat log).2.isSignedB = true →
      (submitForm t (buildReviewed files cb) name email role cat log).1
        = log ++ [(record_signature t name email role cat
            (firstDedup (files.map (fun f => f.name))) log).2]) := by
  have h1 : reviewedFilesOf (buildReviewed files cb)
      = (buildReviewed files cb).map (fun p => p.1) := by
    unfold reviewedFilesOf
    rw [filter_all_true _ hall]
  have h2 : reviewedFilesOf (buildReviewed files cb)
      = firstDedup (files.map (fun f => f.name)) :=
    h1.trans (keys_buildReviewed files cb)
  refine ⟨h2, ?_, ?_⟩
  · intro f hf
    rw [h2, mem_firstDedup]
    exact List.mem_map_of_mem _ hf
  · intro t name email role cat log hsig
    by_cases hne : name = "" ∨ email = ""
    · exfalso
      have hs : submitForm t (buildReviewed files cb) name email role cat log
          = (log, SubmitResult.errMissingNameEmail) := by
        unfold submitForm
        rw [hall, if_neg (by simp : ¬ (true = false)), if_pos hne]
      rw [hs] at hsig
      simp [SubmitResult.isSignedB] at hsig
    · have hs : submitForm t (buildReviewed files cb) name email role cat log
          = ((record_signature t name email role cat
                (reviewedFilesOf (buildReviewed files cb)) log).1,
             SubmitResult.signed (record_signature t name email role cat
                (reviewedFilesOf (buildReviewed files cb)) log).2) := by
        unfold submitForm
        rw [hall, if_neg (by simp : ¬ (true = false)), if_neg hne]
      rw [hs, h2]
      rfl

theorem submit_passes_all_file_names_wit :
    reviewedFilesOf (buildReviewed demoFiles cbTrue)
      = firstDedup (demoFiles.map (fun f => f.name)) ∧
    "a.pdf" ∈ reviewedFilesOf (buildReviewed demoFiles cbTrue) :=
  ⟨(submit_passes_all_file_names demoFiles cbTrue (by decide)).1,
   (submit_passes_all_file_names demoFiles cbTrue (by decide)).2.1
     ⟨"a.pdf", "a.pdf", 1, true, ".pdf"⟩ (by decide)⟩
